import Mathlib

/-!
Verification of the slot-replay engine in `src/static/app.js` (MEV builder-bids
dashboard).  The JavaScript class `MEVDashboard` is shallowly embedded here:

* JS `Map` objects (`slotCache`, `builderColors`) become insertion-ordered
  association lists `List (ℕ × _)`, mirroring the JS `Map` iteration-order
  guarantee that `map.keys().next().value` is the earliest-inserted key.
* JS numbers are IEEE-754 binary64 values.  All numbers this program ever
  computes with are exactly representable rationals, so they are embedded as
  `ℚ` together with an explicit rounding function `roundDouble` that performs
  round-to-nearest, ties-to-even at 53 significand bits (the exact semantics
  of a JS `+`/`-` on normal-range values).  Where the source adds or subtracts
  the literal `0.1`, the model uses `c01`, the exact rational value of the
  binary64 literal `0.1`, and rounds the result.
* The timer callback of `startTimer`, navigation (`goToNextSlot`), pause
  (`togglePlayPause`), caching (`setCachedSlot`), bid filtering
  (`updateVisibleBids`), the leading/delivered choice (`updateWinningBuilder`),
  the builder-colour bookkeeping in `displaySlotData` and the de-duplicating
  fetch (`fetchSlotData`) are each translated as pure functions on explicit
  state below, keeping the source's names.
-/

namespace MevBoost

/-- A bid record as delivered by the backend and consumed by `app.js`
(fields `builder_pubkey`, `builder_label`, `color`, `value_eth`,
`seconds_in_slot`, `is_winner`).  Opaque display strings are embedded as
naturals; the numeric fields are exact rationals. -/
structure Bid where
  builder_pubkey : ℕ
  builder_label : ℕ
  color : ℕ
  value_eth : ℚ
  seconds_in_slot : ℚ
  is_winner : Bool
deriving DecidableEq

/-- A per-slot snapshot (`data` in `fetchSlotData`): bid list in arrival
order, relay list, optional winning block hash. -/
structure SlotData where
  bids : List Bid
  relays : List ℕ
  winning_block_hash : Option ℕ
deriving DecidableEq

/-- A fixed sample snapshot, used to instantiate witnesses. -/
def sampleData : SlotData :=
  { bids := [], relays := [], winning_block_hash := none }

/-! ### Binary64 arithmetic

The timer arithmetic in `startTimer` (`this.timerValue -= 0.1`,
`this.elapsedTime += 0.1`) runs on JS doubles.  We embed a double as the
rational it denotes and model one arithmetic step as the exact rational
operation followed by `roundDouble`, correct rounding to 53 significand
bits (round to nearest, ties to even) — exactly IEEE-754 binary64 for the
normal-range magnitudes occurring here. -/

/-- Number of binary digits of a natural number (`⌊log₂ n⌋ + 1` for `n > 0`),
written with explicit fuel so that the recursion is structural and
kernel-reducible.  128 bits of fuel cover every value this model meets. -/
def bitlenAux : ℕ → ℕ → ℕ
  | 0, _ => 0
  | _ + 1, 0 => 0
  | f + 1, n + 1 => bitlenAux f ((n + 1) / 2) + 1

/-- Binary length of a natural number. -/
def bitlen (n : ℕ) : ℕ := bitlenAux 128 n

/-- Exact rational addition, written through `mkRat` so that it evaluates
inside the kernel (the library's `Rat.add` is irreducible). -/
def qAdd (a b : ℚ) : ℚ := mkRat (a.num * b.den + b.num * a.den) (a.den * b.den)

/-- Exact rational subtraction via `mkRat`. -/
def qSub (a b : ℚ) : ℚ := mkRat (a.num * b.den - b.num * a.den) (a.den * b.den)

/-- Exact rational multiplication via `mkRat`. -/
def qMul (a b : ℚ) : ℚ := mkRat (a.num * b.num) (a.den * b.den)

/-- Absolute value of a rational via `mkRat`. -/
def qAbs (q : ℚ) : ℚ := if q < 0 then mkRat (-q.num) q.den else q

/-- `2 ^ e` as a rational, for an integer exponent `e`. -/
def qpow2 (e : ℤ) : ℚ :=
  if 0 ≤ e then mkRat (2 ^ e.toNat) 1 else mkRat 1 (2 ^ (-e).toNat)

/-- `⌊log₂ q⌋` for a positive rational `q = a / b`: the bit lengths of `a`
and `b` localise the exponent to `{d - 1, d}` with
`d = bitlen a - bitlen b`, and one comparison decides which. -/
def floorLog2 (q : ℚ) : ℤ :=
  let d : ℤ := (bitlen q.num.natAbs : ℤ) - (bitlen q.den : ℤ)
  if qpow2 d ≤ q then d else d - 1

/-- Round a rational to the nearest integer, ties to even, computed on the
numerator and denominator directly (`f = ⌊t⌋`, then compare twice the
remainder against the denominator). -/
def roundNearestEvenInt (t : ℚ) : ℤ :=
  let a := t.num
  let b : ℤ := (t.den : ℤ)
  let f := a.fdiv b
  let r2 := 2 * (a - f * b)
  if r2 < b then f
  else if b < r2 then f + 1
  else if f % 2 = 0 then f else f + 1

/-- Correctly rounded binary64 value of a rational: round to nearest, ties
to even, at 53 significand bits.  This is the result JS produces for an
arithmetic operation whose exact value is `q` (normal-range magnitudes,
which covers every value this program computes). -/
def roundDouble (q : ℚ) : ℚ :=
  if q = 0 then 0
  else
    let k : ℤ := floorLog2 (qAbs q) - 52
    qMul (mkRat (roundNearestEvenInt (qMul q (qpow2 (-k)))) 1) (qpow2 k)

/-- The exact rational value of the binary64 literal `0.1`
(`3602879701896397 / 2 ^ 55`). -/
def c01 : ℚ := mkRat 3602879701896397 36028797018963968

/-! ### Insertion-ordered maps (JS `Map` as an association list) -/

/-- `Map.prototype.set`: replace in place if the key is present (JS keeps
the original insertion position), otherwise append at the end. -/
def mapSet {α : Type} : List (ℕ × α) → ℕ → α → List (ℕ × α)
  | [], k, v => [(k, v)]
  | (k', v') :: rest, k, v =>
    if k' = k then (k, v) :: rest else (k', v') :: mapSet rest k v

/-- `Map.prototype.get`: the value stored at `k`, if any. -/
def mapGet {α : Type} : List (ℕ × α) → ℕ → Option α
  | [], _ => none
  | (k', v') :: rest, k => if k' = k then some v' else mapGet rest k

/-! ### SlotCache (`getCachedSlot` / `setCachedSlot`, capacity 20) -/

/-- `setCachedSlot`: insert, then if the size exceeds 20, delete the
earliest-inserted key (`this.slotCache.keys().next().value`, the head of
the insertion order). -/
def setCachedSlot (c : List (ℕ × SlotData)) (slot : ℕ) (data : SlotData) :
    List (ℕ × SlotData) :=
  let c' := mapSet c slot data
  if 20 < c'.length then c'.drop 1 else c'

/-- Fold `setCachedSlot` over a list of insertions. -/
def insertAll (l : List (ℕ × SlotData)) (c : List (ℕ × SlotData)) :
    List (ℕ × SlotData) :=
  l.foldl (fun acc p => setCachedSlot acc p.1 p.2) c

/-- The last `n` elements of a list. -/
def lastN {α : Type} (n : ℕ) (l : List α) : List α := l.drop (l.length - n)

/-- The insertion sequence `(s 0, d 0), …, (s (n-1), d (n-1))` used by the
cache-eviction scenario. -/
def scenarioList (s : ℕ → ℕ) (d : ℕ → SlotData) (n : ℕ) : List (ℕ × SlotData) :=
  (List.range n).map (fun i => (s i, d i))

/-! ### Playback state, timer and navigation -/

/-- The mutable dashboard fields driving playback: `currentSlot`,
`timerValue` (remaining seconds), `elapsedTime`, `isPlaying`,
`isTransitioning`, plus `advances`, an instrumentation counter of
`goToNextSlot` invocations (slot-advance events). -/
structure DashState where
  currentSlot : ℕ
  timerValue : ℚ
  elapsedTime : ℚ
  isPlaying : Bool
  isTransitioning : Bool
  advances : ℕ
deriving DecidableEq

/-- `goToNextSlot`: advance `currentSlot`, reset the countdown
(`timerValue = 12`, `elapsedTime = 0`), and report whether the
fire-and-forget `refreshMaxAvailableSlot()` resync was issued
(`currentSlot % 10 === 0` after the increment).  The resync's own result
never feeds back into this state, which is why it cannot block
navigation. -/
def goToNextSlot (st : DashState) : DashState × Bool :=
  let st' := { st with
    currentSlot := st.currentSlot + 1
    timerValue := (12 : ℚ)
    elapsedTime := (0 : ℚ)
    advances := st.advances + 1 }
  (st', st'.currentSlot % 10 == 0)

/-- One firing of the `setInterval` callback installed by `startTimer`.
The callback returns immediately when `!isPlaying || isTransitioning`;
otherwise it performs the two binary64 updates, and when the timer has
dropped to `≤ 0` it sets `isTransitioning`, awaits `goToNextSlot()` and
clears the flag.  This function models the firing in which that awaited
advance completes before the next tick is processed (any tick arriving
while the flag is still set is the no-op first branch). -/
def timerTick (st : DashState) : DashState :=
  if !st.isPlaying || st.isTransitioning then st
  else
    let tv := roundDouble (qSub st.timerValue c01)
    let el := roundDouble (qAdd st.elapsedTime c01)
    let st1 := { st with timerValue := tv, elapsedTime := el }
    if tv ≤ 0 then { (goToNextSlot st1).1 with isTransitioning := false }
    else st1

/-- `n` consecutive timer-callback firings. -/
def tickIter : ℕ → DashState → DashState
  | 0, st => st
  | n + 1, st => timerTick (tickIter n st)

/-- The playback state right after `startTimer()` runs on a fresh
dashboard: timer full, elapsed zero, autoplay on, no transition pending. -/
def initState : DashState :=
  { currentSlot := 0
    timerValue := (12 : ℚ)
    elapsedTime := (0 : ℚ)
    isPlaying := true
    isTransitioning := false
    advances := 0 }

/-- The reset performed at the top of `startTimer()`:
`timerValue = 12`, `elapsedTime = 0` (the interval is also re-armed, which
has no effect on these fields). -/
def startTimer (st : DashState) : DashState :=
  { st with timerValue := (12 : ℚ), elapsedTime := (0 : ℚ) }

/-- `togglePlayPause`: flip `isPlaying`; when the new state is playing,
call `startTimer()` (which resets the countdown to the full window). -/
def togglePlayPause (st : DashState) : DashState :=
  let st' := { st with isPlaying := !st.isPlaying }
  if st'.isPlaying then startTimer st' else st'

/-- The trace of `n` successive `goToNextSlot()` calls: for each call, the
slot displayed afterwards and whether that call issued the
`refreshMaxAvailableSlot()` resync. -/
def nextN : ℕ → DashState → List (ℕ × Bool)
  | 0, _ => []
  | n + 1, st =>
    let p := goToNextSlot st
    (p.1.currentSlot, p.2) :: nextN n p.1

/-- The dashboard state sitting at slot 100 (the resync scenario's start). -/
def navState100 : DashState := { initState with currentSlot := 100 }

/-! ### VisibilityWindow (`updateVisibleBids`) -/

/-- The filter in `updateVisibleBids`:
`this.allBidsData.filter(bid => bid.seconds_in_slot <= this.elapsedTime)`. -/
def visibleBids (allBidsData : List Bid) (elapsedTime : ℚ) : List Bid :=
  allBidsData.filter (fun b => b.seconds_in_slot ≤ elapsedTime)

/-! ### Leading and delivered bid (`updateWinningBuilder`) -/

/-- The `reduce` in `updateWinningBuilder`:
`bids.reduce((max, bid) => bid.value_eth > max.value_eth ? bid : max)`.
JS `reduce` without an initial value starts from the first element, so an
empty list yields nothing. -/
def leadingBid : List Bid → Option Bid
  | [] => none
  | b :: rest =>
    some (rest.foldl (fun mx bid =>
      if mx.value_eth < bid.value_eth then bid else mx) b)

/-- Which label the winning-builder panel shows. -/
inductive ShownLabel where
  | leading
  | delivered
deriving DecidableEq

/-- The display decision of `updateWinningBuilder` on the currently visible
bids: nothing when no bid is visible; the first visible bid flagged
`is_winner` (shown as "Delivered") when one exists; otherwise the reduce's
leading bid (shown as "Leading"). -/
def updateWinningBuilder (visible : List Bid) : Option (ShownLabel × Bid) :=
  match visible.find? (fun b => b.is_winner) with
  | some d => some (ShownLabel.delivered, d)
  | none =>
    match leadingBid visible with
    | some lb => some (ShownLabel.leading, lb)
    | none => none

/-- The spec's description of the leading bid, stated as a property:
`m` occurs in `l`, no bid in `l` has a larger value, and every bid seen
before `m` has a strictly smaller value (ties broken by first-seen
order). -/
def IsFirstMax (m : Bid) (l : List Bid) : Prop :=
  m ∈ l ∧ (∀ b ∈ l, b.value_eth ≤ m.value_eth) ∧
    ∃ pre suf, l = pre ++ m :: suf ∧ ∀ b ∈ pre, b.value_eth < m.value_eth

/-! ### Builder-colour map (`displaySlotData`, capacity `MAX_BUILDER_COLORS = 200`) -/

/-- Processing one bid of the colour loop in `displaySlotData`: an already
known `builder_pubkey` changes nothing; an unseen one first evicts the
earliest-inserted key when the map is at capacity
(`size >= MAX_BUILDER_COLORS`), then is inserted. -/
def addBuilderColor (colors : List (ℕ × ℕ)) (b : Bid) : List (ℕ × ℕ) :=
  if (mapGet colors b.builder_pubkey).isSome then colors
  else
    let colors' := if 200 ≤ colors.length then colors.drop 1 else colors
    mapSet colors' b.builder_pubkey b.color

/-- The whole `this.allBidsData.forEach(...)` colour update of one display
operation. -/
def updateBuilderColors (colors : List (ℕ × ℕ)) (bids : List Bid) :
    List (ℕ × ℕ) :=
  bids.foldl addBuilderColor colors

/-! ### Deduplicated fetching (`fetchSlotData`)

A waiter created by the `pendingFetches` branch polls the cache every
100 ms (`setInterval(checkCache, 100)`) and is cut off by a 10-second
`setTimeout` that resolves `null`; at most 100 polls fit inside the
window.  `cacheAt k` is the cache lookup result the waiter would observe
at its `k`-th poll. -/

/-- The waiter's polling loop: starting at poll index `k` with `fuel`
polls left, return the first cache entry seen, or `none` (the timeout's
`resolve(null)`) when the polls run out. -/
def pollFrom (cacheAt : ℕ → Option SlotData) : ℕ → ℕ → Option SlotData
  | _, 0 => none
  | k, fuel + 1 =>
    match cacheAt k with
    | some d => some d
    | none => pollFrom cacheAt (k + 1) fuel

/-- The full wait of a deduplicated caller: up to 100 polls (10 s at one
poll per 100 ms), then the timeout resolves `null`. -/
def waitForSlot (cacheAt : ℕ → Option SlotData) : Option SlotData :=
  pollFrom cacheAt 1 100

/-- Which branch of `fetchSlotData` a call takes. -/
inductive FetchPath where
  | cachedHit (d : SlotData)
  | waiter
  | fresh
deriving DecidableEq

/-- The shared mutable fetch state: the slot cache and the
`pendingFetches` registry. -/
structure FetchState where
  slotCache : List (ℕ × SlotData)
  pendingFetches : List ℕ
deriving DecidableEq

/-- The branch selection at the top of `fetchSlotData`: cached value wins;
otherwise a slot already in `pendingFetches` makes the caller a waiter;
otherwise the caller performs the fetch itself. -/
def fetchSlotDataPath (st : FetchState) (s : ℕ) : FetchPath :=
  match mapGet st.slotCache s with
  | some d => FetchPath.cachedHit d
  | none => if s ∈ st.pendingFetches then FetchPath.waiter else FetchPath.fresh

/-- Network requests issued by a call taking the given branch: only the
`fresh` branch calls `fetch`. -/
def requestCount : FetchPath → ℕ
  | FetchPath.fresh => 1
  | _ => 0

/-- `this.pendingFetches.add(slot)` before the network request. -/
def startFetch (st : FetchState) (s : ℕ) : FetchState :=
  { st with pendingFetches := s :: st.pendingFetches }

/-- Completion of a fresh fetch: a successful response is stored with
`setCachedSlot`; an error stores nothing; the `finally` clause always
removes the pending mark. -/
def completeFetch (st : FetchState) (s : ℕ) (res : Option SlotData) :
    FetchState :=
  { slotCache :=
      match res with
      | some d => setCachedSlot st.slotCache s d
      | none => st.slotCache
    pendingFetches := st.pendingFetches.erase s }

/-- Two concurrent `fetchSlotData(s)` calls, interleaved by the
cooperative scheduler: caller A runs the branch test, marks `s` pending
and issues the network request; caller B runs its branch test while A's
fetch is in flight; A's request settles (success `source s = some d`,
failure `none`) just before B's `j`-th cache poll; B then follows its
branch (for a waiter, the 100-poll/10-second wait).  Returns the total
number of network requests issued and the values A and B resolve with.
The branch arithmetic presumes A takes the `fresh` branch, which the
dedup theorems' hypotheses (slot neither cached nor pending) guarantee. -/
def fetchSlotDataPair (source : ℕ → Option SlotData) (st : FetchState)
    (s : ℕ) (j : ℕ) : ℕ × Option SlotData × Option SlotData :=
  let pathA := fetchSlotDataPath st s
  let stA := startFetch st s
  let pathB := fetchSlotDataPath stA s
  let stDone := completeFetch stA s (source s)
  let cacheAt : ℕ → Option SlotData := fun k =>
    if j ≤ k then mapGet stDone.slotCache s else none
  let resB :=
    match pathB with
    | FetchPath.cachedHit d => some d
    | FetchPath.waiter => waitForSlot cacheAt
    | FetchPath.fresh => source s
  (requestCount pathA + requestCount pathB, source s, resB)

/-- A playback state with a slot transition in progress, used as a witness
input. -/
def transState : DashState :=
  { currentSlot := 3
    timerValue := (5 : ℚ)
    elapsedTime := (7 : ℚ)
    isPlaying := true
    isTransitioning := true
    advances := 2 }

/-- A playback state mid-countdown, used as a witness input. -/
def midState : DashState :=
  { currentSlot := 9
    timerValue := mkRat 7 2
    elapsedTime := mkRat 17 2
    isPlaying := true
    isTransitioning := false
    advances := 4 }

set_option maxRecDepth 200000

/-! ## Theorems -/

/-- Each timer-callback firing can only increase the slot-advance count. -/
theorem advances_le_timerTick (st : DashState) :
    st.advances ≤ (timerTick st).advances := by
  unfold timerTick
  split
  · exact Nat.le_refl _
  · dsimp only
    split
    · simp [goToNextSlot]
    · exact Nat.le_refl _

/-- The slot-advance count is monotone along consecutive timer firings. -/
theorem advances_mono_tickIter (st : DashState) (m k : ℕ) :
    (tickIter m st).advances ≤ (tickIter (m + k) st).advances := by
  induction k with
  | zero => exact Nat.le_refl _
  | succ k ih => exact Nat.le_trans ih (advances_le_timerTick _)

/-- C4: while a slot advance is in progress (`isTransitioning` set), a
firing of the playback clock is a no-op: the state — in particular
`elapsedTime`, `timerValue` and the slot-advance count — is unchanged, so
no second slot-advance can be emitted before the first completes. -/
theorem transitioning_tick_noop (st : DashState)
    (h : st.isTransitioning = true) :
    timerTick st = st ∧ (timerTick st).advances = st.advances := by
  have hst : timerTick st = st := by unfold timerTick; rw [h]; simp
  exact ⟨hst, by rw [hst]⟩

theorem transitioning_tick_noop_witness :
    timerTick transState = transState ∧
      (timerTick transState).advances = transState.advances :=
  transitioning_tick_noop transState rfl

/-- C8: pausing mid-countdown keeps the remaining time where it was, and
resuming does not continue from it: `togglePlayPause` on a playing state
leaves `timerValue` untouched, and toggling again (resume) runs
`startTimer`, which restarts the full window (`timerValue = 12`,
`elapsedTime = 0`). -/
theorem pause_resume_resets (st : DashState) (h : st.isPlaying = true) :
    (togglePlayPause st).isPlaying = false ∧
    (togglePlayPause st).timerValue = st.timerValue ∧
    (togglePlayPause (togglePlayPause st)).isPlaying = true ∧
    (togglePlayPause (togglePlayPause st)).timerValue = 12 ∧
    (togglePlayPause (togglePlayPause st)).elapsedTime = 0 := by
  simp [togglePlayPause, startTimer, h]

theorem pause_resume_resets_witness :
    (togglePlayPause midState).isPlaying = false ∧
    (togglePlayPause midState).timerValue = midState.timerValue ∧
    (togglePlayPause (togglePlayPause midState)).isPlaying = true ∧
    (togglePlayPause (togglePlayPause midState)).timerValue = 12 ∧
    (togglePlayPause (togglePlayPause midState)).elapsedTime = 0 :=
  pause_resume_resets midState rfl

/-- C7: ten `goToNextSlot()` calls from slot 100 visit slots 101–110 and
issue the `refreshMaxAvailableSlot` resync exactly once, on the call that
makes the current slot 110; in general a forward navigation issues the
resync exactly when the new slot number is divisible by 10.  The resync
result never feeds back into the navigation state (fire-and-forget), so
the visited slots are as below no matter how the resync resolves. -/
theorem next_resync_every_tenth :
    nextN 10 navState100 =
      [(101, false), (102, false), (103, false), (104, false), (105, false),
       (106, false), (107, false), (108, false), (109, false), (110, true)] ∧
    ((nextN 10 navState100).filter (fun p => p.2)).length = 1 ∧
    (∀ st : DashState,
      ((goToNextSlot st).2 = true ↔ (st.currentSlot + 1) % 10 = 0)) := by
  refine ⟨by decide, by decide, ?_⟩
  intro st
  simp [goToNextSlot]

/-- C3 counterexample: firing the playback clock 120 times from the fresh
state triggers no slot-advance at all — the double-precision timer value
after 120 ticks is `933 / 2 ^ 55`, still strictly positive — so the
claimed advance on the 120th tick does not happen. -/
theorem playbackClock_tick120_no_advance :
    (tickIter 120 initState).advances = 0 ∧
    (0 : ℚ) < (tickIter 120 initState).timerValue ∧
    (tickIter 120 initState).timerValue = mkRat 933 36028797018963968 := by
  refine ⟨by decide, by decide, by decide⟩

/-- C3 (amended): with binary64 arithmetic, no tick up to the 120th
triggers a slot-advance; the 121st tick is the first whose updated timer
value drops to `≤ 0`, it triggers the advance exactly once, and
immediately after the advance `elapsedTime` is reset to 0 (and the
countdown to the full 12). -/
theorem playbackClock_advance_at_tick121 :
    (∀ m, m ≤ 120 → (tickIter m initState).advances = 0) ∧
    (tickIter 121 initState).advances = 1 ∧
    (tickIter 121 initState).elapsedTime = 0 ∧
    (tickIter 121 initState).timerValue = 12 := by
  refine ⟨?_, by decide, by decide, by decide⟩
  intro m hm
  have h120 : (tickIter 120 initState).advances = 0 := by decide
  have hmono := advances_mono_tickIter initState m (120 - m)
  rw [Nat.add_sub_cancel' hm] at hmono
  omega

theorem playbackClock_advance_at_tick121_witness :
    (tickIter 7 initState).advances = 0 ∧
      (tickIter 121 initState).advances = 1 :=
  ⟨playbackClock_advance_at_tick121.1 7 (by decide),
    playbackClock_advance_at_tick121.2.1⟩

/-- C5: for a fixed bid list and elapsed times `t1 ≤ t2`, the bids visible
at `t1` form a sublist (hence subset, in order) of those visible at `t2`;
moreover the visible set consists exactly of the bids whose arrival offset
`seconds_in_slot` is at most the elapsed time, and it preserves the
snapshot's original bid order (it is a sublist of the original list). -/
theorem visibleBids_monotone (allBidsData : List Bid) (t1 t2 : ℚ)
    (h : t1 ≤ t2) :
    (visibleBids allBidsData t1).Sublist (visibleBids allBidsData t2) ∧
    (∀ b, b ∈ visibleBids allBidsData t1 ↔
      b ∈ allBidsData ∧ b.seconds_in_slot ≤ t1) ∧
    (visibleBids allBidsData t1).Sublist allBidsData := by
  refine ⟨?_, ?_, List.filter_sublist _⟩
  · apply List.monotone_filter_right
    intro b hb
    simp only [decide_eq_true_eq] at hb ⊢
    exact le_trans hb h
  · intro b
    simp [visibleBids, List.mem_filter]

/-- A three-bid snapshot (offsets 0.5 s, 2 s, 5 s) used as a witness. -/
def bidA : Bid :=
  { builder_pubkey := 1, builder_label := 1, color := 1
    value_eth := mkRat 1 100, seconds_in_slot := mkRat 1 2, is_winner := false }

/-- Second witness bid: the highest-valued one. -/
def bidB : Bid :=
  { builder_pubkey := 2, builder_label := 2, color := 2
    value_eth := mkRat 5 100, seconds_in_slot := (2 : ℚ), is_winner := false }

/-- Third witness bid: flagged as the delivered bid. -/
def bidC : Bid :=
  { builder_pubkey := 3, builder_label := 3, color := 3
    value_eth := mkRat 2 100, seconds_in_slot := (5 : ℚ), is_winner := true }

theorem visibleBids_monotone_witness :
    (visibleBids [bidA, bidB, bidC] 3).Sublist
      (visibleBids [bidA, bidB, bidC] 6) ∧
    (∀ b, b ∈ visibleBids [bidA, bidB, bidC] 3 ↔
      b ∈ [bidA, bidB, bidC] ∧ b.seconds_in_slot ≤ 3) ∧
    (visibleBids [bidA, bidB, bidC] 3).Sublist [bidA, bidB, bidC] :=
  visibleBids_monotone [bidA, bidB, bidC] 3 6 (by norm_num)

/-- The `reduce((max, bid) => bid.value_eth > max.value_eth ? bid : max)`
accumulation picks the first maximum: starting from accumulator `b`, the
fold over `rest` returns the earliest element of `b :: rest` attaining the
maximal `value_eth` (a strictly-greater test never replaces the
accumulator on a tie). -/
theorem reduce_isFirstMax (rest : List Bid) :
    ∀ b : Bid,
      IsFirstMax
        (rest.foldl (fun mx bid =>
          if mx.value_eth < bid.value_eth then bid else mx) b)
        (b :: rest) := by
  induction rest with
  | nil =>
    intro b
    refine ⟨List.mem_singleton_self b, ?_, [], [], rfl, ?_⟩
    · intro c hc
      rw [List.mem_singleton] at hc
      subst hc
      exact le_refl _
    · intro c hc
      cases hc
  | cons x xs ih =>
    intro b
    by_cases hbx : b.value_eth < x.value_eth
    · have hstep : (if b.value_eth < x.value_eth then x else b) = x :=
        if_pos hbx
      rw [List.foldl_cons, hstep]
      obtain ⟨hmem, hbound, pre, suf, hsplit, hpre⟩ := ih x
      set R := List.foldl
        (fun mx bid => if mx.value_eth < bid.value_eth then bid else mx) x xs
        with hR
      have hxr : x.value_eth ≤ R.value_eth :=
        hbound x (List.mem_cons_self x xs)
      refine ⟨?_, ?_, b :: pre, suf, ?_, ?_⟩
      · exact List.mem_cons_of_mem _ hmem
      · intro c hc
        rcases List.mem_cons.mp hc with rfl | hc'
        · exact le_trans (le_of_lt hbx) hxr
        · exact hbound c hc'
      · rw [List.cons_append, ← hsplit]
      · intro c hc
        rcases List.mem_cons.mp hc with rfl | hc'
        · exact lt_of_lt_of_le hbx hxr
        · exact hpre c hc'
    · have hstep : (if b.value_eth < x.value_eth then x else b) = b :=
        if_neg hbx
      have hxb : x.value_eth ≤ b.value_eth := le_of_not_lt hbx
      rw [List.foldl_cons, hstep]
      obtain ⟨hmem, hbound, pre, suf, hsplit, hpre⟩ := ih b
      set R := List.foldl
        (fun mx bid => if mx.value_eth < bid.value_eth then bid else mx) b xs
        with hR
      have hbr : b.value_eth ≤ R.value_eth :=
        hbound b (List.mem_cons_self b xs)
      refine ⟨?_, ?_, ?_⟩
      · rcases List.mem_cons.mp hmem with hRb | hmem'
        · rw [hRb]
          exact List.mem_cons_self _ _
        · exact List.mem_cons_of_mem _ (List.mem_cons_of_mem _ hmem')
      · intro c hc
        rcases List.mem_cons.mp hc with rfl | hc'
        · exact hbr
        · rcases List.mem_cons.mp hc' with rfl | hc''
          · exact le_trans hxb hbr
          · exact hbound c (List.mem_cons_of_mem _ hc'')
      · cases pre with
        | nil =>
          have hb : b = R := ((List.cons.injEq _ _ _ _).mp hsplit).1
          refine ⟨[], x :: xs, ?_, ?_⟩
          · rw [← hb]
            rfl
          · intro c hc
            cases hc
        | cons p pre' =>
          have hb : b = p := ((List.cons.injEq _ _ _ _).mp hsplit).1
          have hxs : xs = pre' ++ R :: suf :=
            ((List.cons.injEq _ _ _ _).mp hsplit).2
          have hbrs : b.value_eth < R.value_eth := by
            rw [hb]
            exact hpre p (List.mem_cons_self p pre')
          refine ⟨b :: x :: pre', suf, ?_, ?_⟩
          · rw [List.cons_append, List.cons_append, hxs]
          · intro c hc
            rcases List.mem_cons.mp hc with rfl | hc'
            · exact hbrs
            · rcases List.mem_cons.mp hc' with rfl | hc''
              · exact lt_of_le_of_lt hxb hbrs
              · exact hpre c (List.mem_cons_of_mem _ hc'')

/-- `List.find?` returns the unique element satisfying the predicate when
one exists in the list. -/
theorem find?_first_true {α : Type} (p : α → Bool) (d : α) :
    ∀ l : List α, d ∈ l → p d = true → (∀ e ∈ l, p e = true → e = d) →
      l.find? p = some d := by
  intro l
  induction l with
  | nil =>
    intro hd
    cases hd
  | cons h t ih =>
    intro hd hpd huniq
    cases hph : p h with
    | true =>
      have hhd : h = d := huniq h (List.mem_cons_self h t) hph
      rw [List.find?_cons_of_pos _ hph, hhd]
    | false =>
      have hd' : d ∈ t := by
        rcases List.mem_cons.mp hd with rfl | ht
        · rw [hpd] at hph
          cases hph
        · exact ht
      rw [List.find?_cons_of_neg _ (by simp [hph])]
      exact ih hd' hpd fun e he hpe => huniq e (List.mem_cons_of_mem _ he) hpe

/-- C6: on a non-empty visible-bid set, the `reduce` of
`updateWinningBuilder` selects the leading bid in the spec's sense (the
highest `value_eth`, ties broken by first-seen order); and whenever the
bid flagged `is_winner` is among the visible bids (at most one bid per
snapshot carries the flag), the panel shows it as "Delivered" regardless
of its value, taking precedence over the leading bid. -/
theorem leading_and_delivered (l : List Bid) (hne : l ≠ []) :
    (∃ m, leadingBid l = some m ∧ IsFirstMax m l) ∧
    (∀ d, d ∈ l → d.is_winner = true →
      (∀ e ∈ l, e.is_winner = true → e = d) →
      updateWinningBuilder l = some (ShownLabel.delivered, d)) := by
  constructor
  · match l, hne with
    | b :: rest, _ => exact ⟨_, rfl, reduce_isFirstMax rest b⟩
  · intro d hd hw huniq
    have hfind : l.find? (fun b => b.is_winner) = some d :=
      find?_first_true _ d l hd hw huniq
    unfold updateWinningBuilder
    rw [hfind]

theorem leading_and_delivered_witness :
    (∃ m, leadingBid [bidA, bidB, bidC] = some m ∧
      IsFirstMax m [bidA, bidB, bidC]) ∧
    updateWinningBuilder [bidA, bidB, bidC] =
      some (ShownLabel.delivered, bidC) :=
  ⟨(leading_and_delivered [bidA, bidB, bidC] (by decide)).1,
    (leading_and_delivered [bidA, bidB, bidC] (by decide)).2 bidC
      (by decide) (by decide) (by decide)⟩

/-- `mapGet` misses exactly when the key is not among the stored keys. -/
theorem mapGet_eq_none_iff {α : Type} (l : List (ℕ × α)) (k : ℕ) :
    mapGet l k = none ↔ k ∉ l.map Prod.fst := by
  induction l with
  | nil => simp [mapGet]
  | cons p rest ih =>
    cases p with
    | mk k' v' =>
      rw [show mapGet ((k', v') :: rest) k =
        if k' = k then some v' else mapGet rest k from rfl]
      by_cases h : k' = k
      · subst h
        simp
      · rw [if_neg h, ih]
        simp only [List.map_cons, List.mem_cons]
        constructor
        · intro hk hor
          rcases hor with he | hm
          · exact h he.symm
          · exact hk hm
        · intro hk hm
          exact hk (Or.inr hm)

/-- `Map.set` with a key not yet present appends at the end of the
insertion order. -/
theorem mapSet_of_not_mem {α : Type} (l : List (ℕ × α)) (k : ℕ) (v : α)
    (h : k ∉ l.map Prod.fst) : mapSet l k v = l ++ [(k, v)] := by
  induction l with
  | nil => rfl
  | cons p rest ih =>
    cases p with
    | mk k' v' =>
      simp only [List.map_cons, List.mem_cons] at h
      push_neg at h
      rw [show mapSet ((k', v') :: rest) k v =
        if k' = k then (k, v) :: rest else (k', v') :: mapSet rest k v from rfl]
      rw [if_neg (fun he => h.1 he.symm), ih h.2, List.cons_append]

/-- Looking up a freshly appended key finds its value. -/
theorem mapGet_append_singleton {α : Type} (l : List (ℕ × α)) (k : ℕ) (v : α)
    (h : k ∉ l.map Prod.fst) : mapGet (l ++ [(k, v)]) k = some v := by
  induction l with
  | nil => simp [mapGet]
  | cons p rest ih =>
    cases p with
    | mk k' v' =>
      simp only [List.map_cons, List.mem_cons] at h
      push_neg at h
      rw [List.cons_append,
        show mapGet ((k', v') :: (rest ++ [(k, v)])) k =
          if k' = k then some v' else mapGet (rest ++ [(k, v)]) k from rfl,
        if_neg (fun he => h.1 he.symm)]
      exact ih h.2

/-- In a map whose keys are pairwise distinct, lookup of a stored pair's
key returns the stored value. -/
theorem mapGet_of_mem_nodup {α : Type} (l : List (ℕ × α)) (k : ℕ) (v : α)
    (hn : (l.map Prod.fst).Nodup) (h : (k, v) ∈ l) : mapGet l k = some v := by
  induction l with
  | nil => cases h
  | cons p rest ih =>
    cases p with
    | mk k' v' =>
      simp only [List.map_cons, List.nodup_cons] at hn
      rcases List.mem_cons.mp h with heq | hmem
      · cases heq
        simp [mapGet]
      · have hk : k' ≠ k := fun he => by
          apply hn.1
          rw [he]
          exact List.mem_map_of_mem Prod.fst hmem
        rw [show mapGet ((k', v') :: rest) k =
          if k' = k then some v' else mapGet rest k from rfl, if_neg hk]
        exact ih hn.2 hmem

/-- `lastN` keeps a list that is already short enough. -/
theorem lastN_of_le {α : Type} (n : ℕ) (l : List α) (h : l.length ≤ n) :
    lastN n l = l := by
  simp [lastN, Nat.sub_eq_zero_of_le h]

/-- Dropping the head does not change the last `n` elements of a list that
still has at least `n` of them. -/
theorem lastN_cons {α : Type} (n : ℕ) (a : α) (l : List α)
    (h : n ≤ l.length) : lastN n (a :: l) = lastN n l := by
  unfold lastN
  rw [List.length_cons, Nat.succ_sub h, List.drop_succ_cons]

/-- `Map.set` grows the map by at most one entry. -/
theorem mapSet_length {α : Type} (l : List (ℕ × α)) (k : ℕ) (v : α) :
    (mapSet l k v).length ≤ l.length + 1 := by
  induction l with
  | nil => simp [mapSet]
  | cons p rest ih =>
    cases p with
    | mk k' v' =>
      rw [show mapSet ((k', v') :: rest) k v =
        if k' = k then (k, v) :: rest else (k', v') :: mapSet rest k v from rfl]
      by_cases h : k' = k
      · simp [h]
      · simp only [if_neg h, List.length_cons]
        omega

/-- `setCachedSlot` preserves the capacity bound of 20 entries. -/
theorem setCachedSlot_length (c : List (ℕ × SlotData)) (k : ℕ) (v : SlotData)
    (h : c.length ≤ 20) : (setCachedSlot c k v).length ≤ 20 := by
  have hm := mapSet_length c k v
  show (if 20 < (mapSet c k v).length then (mapSet c k v).drop 1
    else mapSet c k v).length ≤ 20
  split
  · rw [List.length_drop]
    omega
  · omega

/-- Inserting entries with pairwise-fresh keys into a cache within
capacity leaves exactly the last 20 entries of the combined insertion
order: FIFO eviction. -/
theorem insertAll_eq_lastN :
    ∀ (l c : List (ℕ × SlotData)), c.length ≤ 20 →
      ((c ++ l).map Prod.fst).Nodup → insertAll l c = lastN 20 (c ++ l) := by
  intro l
  induction l with
  | nil =>
    intro c hc _
    rw [List.append_nil]
    exact (lastN_of_le 20 c hc).symm
  | cons p t ih =>
    intro c hc hnodup
    cases p with
    | mk k v =>
      have hnod' : (c.map Prod.fst ++ k :: t.map Prod.fst).Nodup := by
        simpa using hnodup
      have hfresh : k ∉ c.map Prod.fst := fun hk =>
        (List.disjoint_of_nodup_append hnod') hk (List.mem_cons_self _ _)
      have hset : mapSet c k v = c ++ [(k, v)] := mapSet_of_not_mem c k v hfresh
      show insertAll t (setCachedSlot c k v) = _
      by_cases hlen : c.length + 1 ≤ 20
      · have hsc : setCachedSlot c k v = c ++ [(k, v)] := by
          unfold setCachedSlot
          rw [hset, if_neg (by simp; omega)]
        rw [hsc, ih (c ++ [(k, v)]) (by simp; omega)
          (by rw [List.append_assoc]; simpa using hnodup)]
        rw [List.append_assoc]
        rfl
      · have hc20 : c.length = 20 := by omega
        cases c with
        | nil => simp at hc20
        | cons chd ctl =>
          have hsc : setCachedSlot (chd :: ctl) k v = ctl ++ [(k, v)] := by
            unfold setCachedSlot
            rw [hset, if_pos (by simp_all)]
            rfl
          have hlen' : ctl.length = 19 := by simp at hc20; omega
          have htail : ((ctl ++ (k, v) :: t).map Prod.fst).Nodup := by
            have h1 : (((chd :: ctl) ++ (k, v) :: t).map Prod.fst).Nodup :=
              hnodup
            simp only [List.cons_append, List.map_cons] at h1
            exact h1.of_cons
          rw [hsc, ih (ctl ++ [(k, v)]) (by simp; omega)
            (by rw [List.append_assoc]; simpa using htail)]
          rw [List.append_assoc,
            show (chd :: ctl) ++ (k, v) :: t = chd :: (ctl ++ (k, v) :: t)
              from rfl,
            lastN_cons 20 chd _ (by simp; omega)]
          rfl

/-- C2: the slot cache never exceeds its capacity of 20 entries
(`setCachedSlot` preserves the bound), and eviction is first-in-first-out:
after inserting 21 pairwise-distinct slots `s 0, …, s 20` into an empty
cache, the earliest slot `s 0` is absent and `s 1, …, s 20` are all
present with their data. -/
theorem slotCache_capacity_fifo
    (c : List (ℕ × SlotData)) (k : ℕ) (v : SlotData) (hc : c.length ≤ 20)
    (s : ℕ → ℕ) (d : ℕ → SlotData)
    (hinj : ∀ i j, i < 21 → j < 21 → s i = s j → i = j) :
    (setCachedSlot c k v).length ≤ 20 ∧
    mapGet (insertAll (scenarioList s d 21) []) (s 0) = none ∧
    (∀ i, 1 ≤ i → i < 21 →
      mapGet (insertAll (scenarioList s d 21) []) (s i) = some (d i)) := by
  have hkeys : (scenarioList s d 21).map Prod.fst = (List.range 21).map s := by
    simp [scenarioList, List.map_map]
  have hnodup : ((scenarioList s d 21).map Prod.fst).Nodup := by
    rw [hkeys]
    exact (List.nodup_range 21).map_on fun i hi j hj hf =>
      hinj i j (List.mem_range.mp hi) (List.mem_range.mp hj) hf
  have hlen : (scenarioList s d 21).length = 21 := by
    simp [scenarioList]
  have hfold : insertAll (scenarioList s d 21) [] =
      (scenarioList s d 21).drop 1 := by
    rw [insertAll_eq_lastN (scenarioList s d 21) [] (by simp)
      (by simpa using hnodup)]
    simp only [List.nil_append, lastN, hlen]
  have hdrop : (scenarioList s d 21).drop 1 =
      (List.range 20).map (fun i => (s (i + 1), d (i + 1))) := by
    rw [scenarioList, List.range_succ_eq_map]
    simp [List.map_map]
  have hdropkeys : ((scenarioList s d 21).drop 1).map Prod.fst =
      (List.range 20).map (fun i => s (i + 1)) := by
    rw [hdrop]
    simp [List.map_map]
  refine ⟨setCachedSlot_length c k v hc, ?_, ?_⟩
  · rw [hfold, mapGet_eq_none_iff, hdropkeys]
    intro hmem
    obtain ⟨i, hi, hsi⟩ := List.mem_map.mp hmem
    have := hinj (i + 1) 0 (by have := List.mem_range.mp hi; omega) (by omega) hsi
    omega
  · intro i h1 h21
    rw [hfold]
    apply mapGet_of_mem_nodup
    · rw [hdropkeys]
      exact ((List.nodup_range 20).map_on fun a ha b hb hf => by
        have := hinj (a + 1) (b + 1) (by have := List.mem_range.mp ha; omega)
          (by have := List.mem_range.mp hb; omega) hf
        omega)
    · rw [hdrop]
      refine List.mem_map.mpr ⟨i - 1, List.mem_range.mpr (by omega), ?_⟩
      rw [Nat.sub_add_cancel h1]

theorem slotCache_capacity_fifo_witness :
    (setCachedSlot [] 0 sampleData).length ≤ 20 ∧
    mapGet (insertAll (scenarioList (fun i => i) (fun _ => sampleData) 21) [])
      0 = none ∧
    mapGet (insertAll (scenarioList (fun i => i) (fun _ => sampleData) 21) [])
      5 = some sampleData :=
  ⟨(slotCache_capacity_fifo [] 0 sampleData (by decide) (fun i => i)
      (fun _ => sampleData) (fun i j _ _ h => h)).1,
    (slotCache_capacity_fifo [] 0 sampleData (by decide) (fun i => i)
      (fun _ => sampleData) (fun i j _ _ h => h)).2.1,
    (slotCache_capacity_fifo [] 0 sampleData (by decide) (fun i => i)
      (fun _ => sampleData) (fun i j _ _ h => h)).2.2 5 (by decide) (by decide)⟩

/-- One colour-map step keeps the map within the 200-entry bound. -/
theorem addBuilderColor_length (colors : List (ℕ × ℕ)) (b : Bid)
    (h : colors.length ≤ 200) : (addBuilderColor colors b).length ≤ 200 := by
  unfold addBuilderColor
  by_cases hseen : (mapGet colors b.builder_pubkey).isSome
  · rw [if_pos hseen]
    exact h
  · rw [if_neg hseen]
    show (mapSet (if 200 ≤ colors.length then colors.drop 1 else colors)
      b.builder_pubkey b.color).length ≤ 200
    by_cases hcap : 200 ≤ colors.length
    · rw [if_pos hcap]
      have hm := mapSet_length (colors.drop 1) b.builder_pubkey b.color
      rw [List.length_drop] at hm
      omega
    · rw [if_neg hcap]
      have hm := mapSet_length colors b.builder_pubkey b.color
      omega

/-- A whole display operation keeps the colour map within the bound. -/
theorem updateBuilderColors_length (bids : List Bid) :
    ∀ colors : List (ℕ × ℕ), colors.length ≤ 200 →
      (updateBuilderColors colors bids).length ≤ 200 := by
  induction bids with
  | nil => intro colors h; exact h
  | cons b t ih =>
    intro colors h
    exact ih (addBuilderColor colors b) (addBuilderColor_length colors b h)

/-- C10: the builder-colour map never exceeds 200 entries: every display
operation (`displaySlotData`'s colour loop over the snapshot's bids)
preserves the bound, and when an unseen `builder_pubkey` arrives with the
map at capacity 200, the step first evicts the earliest-inserted key (the
head of the insertion order) and then appends the new key. -/
theorem builderColors_bounded (colors : List (ℕ × ℕ)) (bids : List Bid)
    (b : Bid) (h : colors.length ≤ 200) :
    (updateBuilderColors colors bids).length ≤ 200 ∧
    (colors.length = 200 → mapGet colors b.builder_pubkey = none →
      addBuilderColor colors b =
        colors.drop 1 ++ [(b.builder_pubkey, b.color)]) := by
  refine ⟨updateBuilderColors_length bids colors h, ?_⟩
  intro h200 hfresh
  unfold addBuilderColor
  rw [if_neg (by rw [hfresh]; simp)]
  show mapSet (if 200 ≤ colors.length then colors.drop 1 else colors)
    b.builder_pubkey b.color = colors.drop 1 ++ [(b.builder_pubkey, b.color)]
  rw [if_pos (by omega)]
  apply mapSet_of_not_mem
  have hnot : b.builder_pubkey ∉ colors.map Prod.fst :=
    (mapGet_eq_none_iff _ _).mp hfresh
  intro hmem
  exact hnot ((List.drop_sublist 1 colors).map Prod.fst |>.mem hmem)

/-- A colour map filled to its capacity of 200 entries, for witnesses. -/
def fullColors : List (ℕ × ℕ) := (List.range 200).map (fun i => (i, i))

/-- A bid by a builder not present in `fullColors`, for witnesses. -/
def bidD : Bid :=
  { builder_pubkey := 500, builder_label := 4, color := 7
    value_eth := (1 : ℚ), seconds_in_slot := (1 : ℚ), is_winner := false }

theorem builderColors_bounded_witness :
    (updateBuilderColors fullColors [bidD]).length ≤ 200 ∧
    addBuilderColor fullColors bidD =
      fullColors.drop 1 ++ [(bidD.builder_pubkey, bidD.color)] :=
  ⟨(builderColors_bounded fullColors [bidD] bidD (by decide)).1,
    (builderColors_bounded fullColors [bidD] bidD (by decide)).2
      (by decide) (by decide)⟩

/-- The waiter's poll loop resolves `null` when every poll in its window
misses the cache. -/
theorem pollFrom_eq_none (cacheAt : ℕ → Option SlotData) :
    ∀ (fuel start : ℕ),
      (∀ k, start ≤ k → k < start + fuel → cacheAt k = none) →
      pollFrom cacheAt start fuel = none := by
  intro fuel
  induction fuel with
  | zero => intro start _; rfl
  | succ f ih =>
    intro start h
    have h0 : cacheAt start = none := h start (le_refl _) (by omega)
    simp only [pollFrom, h0]
    exact ih (start + 1) fun k hk1 hk2 => h k (by omega) (by omega)

/-- The waiter's poll loop resolves with the entry of the first poll that
hits the cache, provided that poll lies inside the window. -/
theorem pollFrom_first_hit (cacheAt : ℕ → Option SlotData) (j : ℕ)
    (d : SlotData) :
    ∀ (fuel start : ℕ), start ≤ j → j < start + fuel → cacheAt j = some d →
      (∀ i, start ≤ i → i < j → cacheAt i = none) →
      pollFrom cacheAt start fuel = some d := by
  intro fuel
  induction fuel with
  | zero =>
    intro start h1 h2 _ _
    exfalso
    omega
  | succ f ih =>
    intro start h1 h2 hj hmiss
    by_cases hs : start = j
    · subst hs
      simp only [pollFrom, hj]
    · have h0 : cacheAt start = none := hmiss start (le_refl _) (by omega)
      simp only [pollFrom, h0]
      exact ih (start + 1) (by omega) (by omega) hj
        fun i hi1 hi2 => hmiss i (by omega) hi2

/-- C9: a deduplicated waiter resolves as soon as a poll sees the cache
entry (with the entry's value), and when no poll within the 10-second
window (100 polls at 100 ms) ever sees an entry, the timeout releases it
with `null` — an absent result equivalent to a fetch failure, not a raised
error (the wait's result type is an `Option`; there is no exception
path). -/
theorem waiter_wait_discipline (cacheAt : ℕ → Option SlotData) (j : ℕ)
    (d : SlotData) :
    ((∀ k, 1 ≤ k → k ≤ 100 → cacheAt k = none) →
      waitForSlot cacheAt = none) ∧
    (1 ≤ j → j ≤ 100 → cacheAt j = some d →
      (∀ i, 1 ≤ i → i < j → cacheAt i = none) →
      waitForSlot cacheAt = some d) := by
  constructor
  · intro h
    exact pollFrom_eq_none cacheAt 100 1 fun k hk1 hk2 => h k hk1 (by omega)
  · intro h1 h100 hj hmiss
    exact pollFrom_first_hit cacheAt j d 100 1 h1 (by omega) hj hmiss

theorem waiter_wait_discipline_witness :
    waitForSlot (fun _ => none) = none ∧
    waitForSlot (fun k => if 3 ≤ k then some sampleData else none) =
      some sampleData :=
  ⟨(waiter_wait_discipline (fun _ => none) 1 sampleData).1 fun _ _ _ => rfl,
    (waiter_wait_discipline (fun k => if 3 ≤ k then some sampleData else none)
        3 sampleData).2 (by omega) (by omega) (if_pos (by omega))
      fun i _ hi2 => if_neg (by omega)⟩

/-- Storing a snapshot for a slot the cache missed makes its lookup hit:
the fresh entry is appended at the tail, and a FIFO eviction (which
removes the head) cannot remove it. -/
theorem mapGet_setCachedSlot (c : List (ℕ × SlotData)) (s : ℕ) (d : SlotData)
    (h : mapGet c s = none) : mapGet (setCachedSlot c s d) s = some d := by
  have hfresh : s ∉ c.map Prod.fst := (mapGet_eq_none_iff c s).mp h
  have hset : mapSet c s d = c ++ [(s, d)] := mapSet_of_not_mem c s d hfresh
  show mapGet (if 20 < (mapSet c s d).length then (mapSet c s d).drop 1
    else mapSet c s d) s = some d
  rw [hset]
  split
  · cases c with
    | nil => simp_all
    | cons p rest =>
      rw [List.cons_append, List.drop_succ_cons, List.drop_zero]
      apply mapGet_append_singleton
      intro hm
      apply hfresh
      simp only [List.map_cons, List.mem_cons]
      exact Or.inr hm
  · exact mapGet_append_singleton c s d hfresh

/-- C1 (amended): a second `fetchSlotData(s)` arriving while a fetch for
`s` is in flight takes the waiter branch and issues no network request
(exactly one request total); when the underlying fetch settles within the
waiter's 10-second window (settling poll index `j ≤ 100`), both callers
observe the same result — the same snapshot on success, and `null` for
both on failure. -/
theorem fetchOrWait_dedup (source : ℕ → Option SlotData) (st : FetchState)
    (s : ℕ) (j : ℕ)
    (hmiss : mapGet st.slotCache s = none)
    (hpend : s ∉ st.pendingFetches)
    (hj1 : 1 ≤ j) (hj100 : j ≤ 100) :
    fetchSlotDataPath st s = FetchPath.fresh ∧
    fetchSlotDataPath (startFetch st s) s = FetchPath.waiter ∧
    (fetchSlotDataPair source st s j).1 = 1 ∧
    (fetchSlotDataPair source st s j).2.1 =
      (fetchSlotDataPair source st s j).2.2 := by
  have hA : fetchSlotDataPath st s = FetchPath.fresh := by
    unfold fetchSlotDataPath
    rw [hmiss]
    exact if_neg hpend
  have hB : fetchSlotDataPath (startFetch st s) s = FetchPath.waiter := by
    show (match mapGet st.slotCache s with
      | some d => FetchPath.cachedHit d
      | none =>
        if s ∈ s :: st.pendingFetches then FetchPath.waiter
        else FetchPath.fresh) = FetchPath.waiter
    rw [hmiss]
    exact if_pos (List.mem_cons_self _ _)
  have hpair : fetchSlotDataPair source st s j =
      (requestCount (fetchSlotDataPath st s) +
        requestCount (fetchSlotDataPath (startFetch st s) s), source s,
        match fetchSlotDataPath (startFetch st s) s with
        | FetchPath.cachedHit d => some d
        | FetchPath.waiter => waitForSlot (fun k => if j ≤ k then
            mapGet (completeFetch (startFetch st s) s (source s)).slotCache s
            else none)
        | FetchPath.fresh => source s) := rfl
  refine ⟨hA, hB, ?_, ?_⟩
  · rw [hpair, hA, hB]
    rfl
  · rw [hpair, hA, hB]
    show source s = waitForSlot (fun k => if j ≤ k then
      mapGet (completeFetch (startFetch st s) s (source s)).slotCache s
      else none)
    cases hsrc : source s with
    | some d =>
      have hc : mapGet (completeFetch (startFetch st s) s
          (some d)).slotCache s = some d :=
        mapGet_setCachedSlot st.slotCache s d hmiss
      exact (pollFrom_first_hit _ j d 100 1 hj1 (by omega)
        (by rw [if_pos (le_refl j)]; exact hc)
        (fun i _ hi2 => if_neg (by omega))).symm
    | none =>
      have hc : mapGet (completeFetch (startFetch st s) s
          (none : Option SlotData)).slotCache s = none := hmiss
      refine (pollFrom_eq_none _ 100 1 fun k _ _ => ?_).symm
      by_cases hjk : j ≤ k
      · rw [if_pos hjk]
        exact hc
      · exact if_neg hjk

theorem fetchOrWait_dedup_witness :
    fetchSlotDataPath ⟨[], []⟩ 5 = FetchPath.fresh ∧
    fetchSlotDataPath (startFetch ⟨[], []⟩ 5) 5 = FetchPath.waiter ∧
    (fetchSlotDataPair (fun _ => some sampleData) ⟨[], []⟩ 5 1).1 = 1 ∧
    (fetchSlotDataPair (fun _ => some sampleData) ⟨[], []⟩ 5 1).2.1 =
      (fetchSlotDataPair (fun _ => some sampleData) ⟨[], []⟩ 5 1).2.2 :=
  fetchOrWait_dedup (fun _ => some sampleData) ⟨[], []⟩ 5 1 rfl
    (by decide) (by decide) (by decide)

/-- C1 counterexample: when the underlying fetch settles only after the
waiter's 10-second window (settling poll index 101), the first caller
resolves with the snapshot while the waiter has already been released with
`null`: the callers do not observe the same snapshot, and they do not both
observe failure — refuting the unqualified claim.  Deduplication itself
still holds (one request). -/
theorem fetchOrWait_dedup_cex :
    (fetchSlotDataPair (fun _ => some sampleData) ⟨[], []⟩ 5 101).2.1 =
      some sampleData ∧
    (fetchSlotDataPair (fun _ => some sampleData) ⟨[], []⟩ 5 101).2.2 =
      none ∧
    (fetchSlotDataPair (fun _ => some sampleData) ⟨[], []⟩ 5 101).1 = 1 := by
  refine ⟨by decide, by decide, by decide⟩

end MevBoost
